import Mathlib

/-!
Shallow embedding of `src/zegie/discover/crawler.py` (class `Crawler`) and of
the specification's Chunker component, for checking the spec's claims.

Text is modelled as `List Char`; the external page loader is an oracle
`String → Except String (List (List Char))` (per URL: either a list of
document bodies or a raised error), matching the spec's "page loader"
collaborator.  All functions are total and executable.
-/

namespace Zegie

/-- Modelled from the spec: the Source ("brand") data model.  `brand.py` is
not under `src/`; per spec §3 a Source is a required primary URL plus an
ordered, possibly empty collection of auxiliary URLs. -/
structure Brand where
  website_url : String
  links : List String
deriving DecidableEq, Repr

/-- Configuration stored by `Crawler.__init__` (crawler.py lines 48-54):
`self.timeout`, `self.max_chunk_length`, and the `chunk_size` /
`chunk_overlap` handed to the text splitter. -/
structure Crawler where
  timeout : Int
  max_chunk_length : Nat
  chunk_size : Nat
  chunk_overlap : Nat
deriving DecidableEq, Repr

/-! ### Chunker (Modelled from the spec)

`Crawler._chunk_content` delegates the actual splitting to
`langchain_text_splitters.RecursiveCharacterTextSplitter`, whose
implementation is not part of this repository.  The splitter below is
modelled from the spec §4.2: recursively split on a prioritized separator
list (paragraph break, sentence break, whitespace, character-level
fallback), keep pieces no larger than `target`, then merge adjacent pieces
into chunks of up to `target` characters, starting each new chunk after the
first with the trailing `overlap` characters of the previous chunk (capped
so the new chunk still respects the `target` bound, as required by
"chunks up to target_chunk_size characters" and the §4.2 invariant). -/

/-- Whether `sep` occurs as a contiguous substring of `t`. -/
def occurs (sep : List Char) : List Char → Bool
  | [] => sep.isEmpty
  | c :: rest => sep.isPrefixOf (c :: rest) || occurs sep rest

/-- Split `t` on the literal separator `sep`, keeping each separator
attached to the piece before it, so the pieces concatenate back to `t`.
`fuel` bounds the recursion (call with `fuel = t.length`); structural in
`fuel` so that it evaluates inside the kernel. -/
def splitGo (sep : List Char) : Nat → List Char → List Char → List (List Char)
  | 0, acc, t => if acc ++ t = [] then [] else [acc ++ t]
  | _ + 1, acc, [] => if acc = [] then [] else [acc]
  | fuel + 1, acc, c :: rest =>
    if sep ≠ [] ∧ sep.isPrefixOf (c :: rest) then
      (acc ++ sep) :: splitGo sep fuel [] (rest.drop (sep.length - 1))
    else
      splitGo sep fuel (acc ++ [c]) rest

/-- Split `t` on the literal separator `sep` (pieces concatenate to `t`). -/
def splitAll (sep t : List Char) : List (List Char) :=
  splitGo sep t.length [] t

/-- The spec's prioritized separators: paragraph break, sentence break,
whitespace, then the character-level fallback (`[]`). -/
def separators : List (List Char) :=
  [['\n', '\n'], ['.', ' '], [' '], []]

/-- Recursive splitting (spec §4.2 step 3): pick the first separator that
occurs in the text; keep the resulting pieces that are no larger than
`target` and re-split larger pieces with the remaining separators; the
empty separator splits into single characters. -/
def recSplit (target : Nat) : List (List Char) → List Char → List (List Char)
  | [], t => if t = [] then [] else [t]
  | sep :: rest, t =>
    if sep = [] then
      t.map (fun c => [c])
    else if occurs sep t then
      (splitAll sep t).flatMap
        (fun p => if p.length ≤ target then [p] else recSplit target rest p)
    else
      recSplit target rest t

/-- Merging (spec §4.2 step 4): accumulate pieces into the current chunk
while it stays within `target`; on overflow, emit the current chunk and
start the next one with the trailing `overlap` characters of the emitted
chunk (capped so the new chunk still fits in `target`). -/
def mergeGo (target overlap : Nat) (cur : List Char) :
    List (List Char) → List (List Char)
  | [] => if cur = [] then [] else [cur]
  | u :: rest =>
    if cur ≠ [] ∧ target < cur.length + u.length then
      cur ::
        mergeGo target overlap
          (cur.drop (cur.length - min overlap (target - u.length)) ++ u) rest
    else
      mergeGo target overlap (cur ++ u) rest

/-- Variant of `mergeGo` annotating each emitted chunk with the length of
the boundary segment it shares with the previous chunk (the trailing
`overlap` characters carried over when the chunk was started).  Used only to
state and prove the overlap/reconstruction properties of `mergeGo`. -/
def mergeAnnot (target overlap : Nat) (k : Nat) (cur : List Char) :
    List (List Char) → List (Nat × List Char)
  | [] => if cur = [] then [] else [(k, cur)]
  | u :: rest =>
    if cur ≠ [] ∧ target < cur.length + u.length then
      (k, cur) ::
        mergeAnnot target overlap
          (cur.drop (cur.length - min overlap (target - u.length))).length
          (cur.drop (cur.length - min overlap (target - u.length)) ++ u) rest
    else
      mergeAnnot target overlap k (cur ++ u) rest

/-- Modelled from the spec: `split_text` of the text splitter configured in
`Crawler.__init__` (spec §4.2 steps 3-4). -/
def split_text (target overlap : Nat) (t : List Char) : List (List Char) :=
  mergeGo target overlap [] (recSplit target separators t)

/-- Modelled from the spec: construction-time configuration validation
(spec §7).  `Crawler.__init__` in `src/` performs no validation itself and
forwards `chunk_size` / `chunk_overlap` to the external text-splitter
library; the spec requires `overlap >= target_chunk_size` and negative
sizes to be rejected at construction with a descriptive failure. -/
def Crawler.init (timeout max_chunk_length chunk_size chunk_overlap : Int) :
    Except String Crawler :=
  if chunk_size ≤ chunk_overlap then
    Except.error "chunk_overlap must be smaller than chunk_size"
  else if chunk_size < 0 ∨ chunk_overlap < 0 ∨ max_chunk_length < 0 then
    Except.error "sizes must be non-negative"
  else
    Except.ok
      (Crawler.mk timeout max_chunk_length.toNat chunk_size.toNat
        chunk_overlap.toNat)

/-! ### Crawler methods (from crawler.py) -/

/-- Embedding of `Crawler._chunk_content` (crawler.py lines 110-126): return `[]` for
empty content, truncate content longer than `self.max_chunk_length`, then
split. -/
def chunk_content (cr : Crawler) (content : List Char) : List (List Char) :=
  if content = [] then []
  else
    let content :=
      if cr.max_chunk_length < content.length then
        content.take cr.max_chunk_length
      else content
    split_text cr.chunk_size cr.chunk_overlap content

/-- Embedding of `Crawler._load_document` (crawler.py lines 92-108): run the loader for
`url`; join the returned documents' page contents with a blank line; any
raised error yields the empty string.  Note the method never reads
`self`, in particular not `self.timeout`. -/
def load_document (loader : String → Except String (List (List Char)))
    (url : String) : List Char :=
  match loader url with
  | Except.error _ => []
  | Except.ok docs =>
    match docs with
    | [] => []
    | d :: rest => d ++ rest.flatMap (fun x => '\n' :: '\n' :: x)

/-- URL-list derivation in `Crawler._async_crawl` (crawler.py lines 78-80):
`urls = [brand.website_url]`, extended by `brand.links` when non-empty
(extending by the empty list is the identity, mirroring the `if
brand.links:` truthiness guard). -/
def derive_urls (brand : Brand) : List String :=
  if brand.links = [] then [brand.website_url]
  else brand.website_url :: brand.links

/-- Embedding of `Crawler._async_crawl` (crawler.py lines 67-90): gather one fetch
result per URL in task order, then extend `chunks` by the chunking of each
truthy (non-empty) result, in result order. -/
def async_crawl (cr : Crawler)
    (loader : String → Except String (List (List Char))) (brand : Brand) :
    List (List Char) :=
  let urls := derive_urls brand
  let results := urls.map (load_document loader)
  results.flatMap (fun r => if r = [] then [] else chunk_content cr r)

/-- Embedding of `Crawler.crawl` (crawler.py lines 56-66): the synchronous facade; it
only runs `_async_crawl` to completion. -/
def crawl (cr : Crawler)
    (loader : String → Except String (List (List Char))) (brand : Brand) :
    List (List Char) :=
  async_crawl cr loader brand

/-- The scheduling model of `asyncio.gather` (crawler.py line 84): one task
per list position; tasks settle in an arbitrary completion order `sched`
(a permutation of the positions), each writing its result into its own
slot, indexed by position.  The slot array, in position order, is
returned. -/
def gatherSched {α : Type} (results : List α) (sched : List Nat) :
    List (Option α) :=
  sched.foldl (fun slots i => slots.set i results[i]?)
    (List.replicate results.length none)

/-- Embedding of `Crawler._async_crawl` with the completion order `sched` of the fetch
tasks made explicit: results are collected from the slots in position
order (a slot left unfilled would contribute nothing). -/
def async_crawl_sched (cr : Crawler)
    (loader : String → Except String (List (List Char))) (brand : Brand)
    (sched : List Nat) : List (List Char) :=
  let urls := derive_urls brand
  let results := urls.map (load_document loader)
  (gatherSched results sched).flatMap fun r =>
    Option.elim r [] (fun c => if c = [] then [] else chunk_content cr c)

/-- Embedding of `Crawler.crawl` in state-passing form: the pair of the returned chunk
list and the `Crawler` object as the method leaves it.  `crawl`,
`_async_crawl` and `_chunk_content` contain no assignment to `self`, so
the translation returns the configuration unchanged. -/
def crawl_st (cr : Crawler)
    (loader : String → Except String (List (List Char))) (brand : Brand) :
    List (List Char) × Crawler :=
  (async_crawl cr loader brand, cr)

/-- Drop `t` leading characters from each chunk (its boundary segment
shared with the previous chunk) and concatenate; used to state the
reconstruction property of the Chunker. -/
def trimCat : List Nat → List (List Char) → List Char
  | t :: ts, c :: cs => c.drop t ++ trimCat ts cs
  | _, _ => []

/-- Concatenation of an annotated chunk list after trimming each chunk's
shared boundary segment. -/
def annotCat (l : List (Nat × List Char)) : List Char :=
  l.flatMap (fun p => p.2.drop p.1)

/-- The whitespace characters, for the whitespace-only input property. -/
def whitespace_chars : List Char := [' ', '\n', '\t']

/-! ### Lemmas about the splitter -/

theorem splitGo_flatten (sep : List Char) :
    ∀ (fuel : Nat) (acc t : List Char),
      (splitGo sep fuel acc t).flatten = acc ++ t := by
  intro fuel
  induction fuel with
  | zero =>
    intro acc t
    rw [splitGo]
    split <;> simp_all
  | succ n ih =>
    intro acc t
    cases t with
    | nil =>
      rw [splitGo]
      split <;> simp_all
    | cons c rest =>
      rw [splitGo]
      split
      · next h =>
        obtain ⟨hne, hpre⟩ := h
        have hp : sep <+: c :: rest := List.isPrefixOf_iff_prefix.mp hpre
        obtain ⟨u, hu⟩ := hp
        obtain ⟨k, hk⟩ : ∃ k, sep.length = k + 1 := by
          cases sep
          · exact absurd rfl hne
          · exact ⟨_, rfl⟩
        have h1 : rest.drop (sep.length - 1) = u := by
          have h2 : (c :: rest).drop sep.length = u := by
            rw [← hu, List.drop_left]
          rw [← h2, hk]
          simp
        rw [List.flatten_cons, ih, h1, List.nil_append, List.append_assoc, hu]
      · rw [ih]
        simp

theorem splitAll_flatten (sep t : List Char) : (splitAll sep t).flatten = t :=
  splitGo_flatten sep t.length [] t

theorem flatten_flatMap_eq {f : List Char → List (List Char)}
    (l : List (List Char)) (hf : ∀ p ∈ l, (f p).flatten = p) :
    (l.flatMap f).flatten = l.flatten := by
  induction l with
  | nil => rfl
  | cons p ps ih =>
    rw [List.flatMap_cons, List.flatten_append, List.flatten_cons,
      hf p (by simp), ih (fun q hq => hf q (by simp [hq]))]

theorem flatten_map_singleton (t : List Char) :
    (t.map (fun c => [c])).flatten = t := by
  induction t <;> simp_all

theorem recSplit_flatten (target : Nat) :
    ∀ (seps : List (List Char)) (t : List Char),
      (recSplit target seps t).flatten = t := by
  intro seps
  induction seps with
  | nil =>
    intro t
    rw [recSplit]
    split <;> simp_all
  | cons sep rest ih =>
    intro t
    rw [recSplit]
    split
    · exact flatten_map_singleton t
    · split
      · rw [flatten_flatMap_eq, splitAll_flatten]
        intro p _
        split
        · simp
        · exact ih p
      · exact ih t

theorem recSplit_length_le (target : Nat) :
    ∀ (seps : List (List Char)), [] ∈ seps →
      ∀ (t : List Char), ∀ p ∈ recSplit target seps t,
        p.length ≤ max target 1 := by
  intro seps
  induction seps with
  | nil => intro h; exact absurd h (by simp)
  | cons sep rest ih =>
    intro hmem t p hp
    rw [recSplit] at hp
    split at hp
    · obtain ⟨c, _, rfl⟩ := List.mem_map.mp hp
      simp
    · next hne =>
      have hrest : [] ∈ rest := by
        rcases List.mem_cons.mp hmem with h | h
        · exact absurd h.symm hne
        · exact h
      split at hp
      · obtain ⟨q, _, hpq⟩ := List.mem_flatMap.mp hp
        by_cases hql : q.length ≤ target
        · rw [if_pos hql] at hpq
          obtain rfl : p = q := by simpa using hpq
          omega
        · rw [if_neg hql] at hpq
          exact ih hrest q p hpq
      · exact ih hrest t p hp

/-! ### Lemmas about the merger -/

theorem mergeGo_length_le (target overlap : Nat) :
    ∀ (units : List (List Char)) (cur : List Char),
      (∀ u ∈ units, u.length ≤ target) → cur.length ≤ target →
      ∀ c ∈ mergeGo target overlap cur units, c.length ≤ target := by
  intro units
  induction units with
  | nil =>
    intro cur _ hcur c hc
    rw [mergeGo] at hc
    split at hc
    · exact absurd hc (by simp)
    · obtain rfl : c = cur := by simpa using hc
      exact hcur
  | cons u rest ih =>
    intro cur hu hcur c hc
    have hul : u.length ≤ target := hu u (by simp)
    rw [mergeGo] at hc
    split at hc
    · rcases List.mem_cons.mp hc with rfl | hc'
      · exact hcur
      · refine ih _ (fun v hv => hu v (by simp [hv])) ?_ _ hc'
        simp only [List.length_append, List.length_drop]
        omega
    · next h =>
      refine ih _ (fun v hv => hu v (by simp [hv])) ?_ _ hc
      rw [List.length_append]
      by_cases hc0 : cur = []
      · simp [hc0]
        omega
      · have := (not_and.mp h) hc0
        omega

theorem mergeGo_infix (target overlap : Nat) :
    ∀ (units : List (List Char)) (cur : List Char),
      ∀ c ∈ mergeGo target overlap cur units, c <:+: cur ++ units.flatten := by
  intro units
  induction units with
  | nil =>
    intro cur c hc
    rw [mergeGo] at hc
    split at hc
    · exact absurd hc (by simp)
    · obtain rfl : c = cur := by simpa using hc
      exact ⟨[], [], by simp⟩
  | cons u rest ih =>
    intro cur c hc
    rw [mergeGo] at hc
    split at hc
    · rcases List.mem_cons.mp hc with rfl | hc'
      · exact ⟨[], (u :: rest).flatten, by simp⟩
      · refine (ih _ c hc').trans ?_
        refine ⟨cur.take (cur.length - min overlap (target - u.length)), [], ?_⟩
        simp [List.flatten_cons, ← List.append_assoc, List.take_append_drop]
    · have h1 := ih _ c hc
      rw [List.flatten_cons, ← List.append_assoc]
      exact h1

theorem mergeAnnot_map_snd (target overlap : Nat) :
    ∀ (units : List (List Char)) (k : Nat) (cur : List Char),
      (mergeAnnot target overlap k cur units).map Prod.snd =
        mergeGo target overlap cur units := by
  intro units
  induction units with
  | nil =>
    intro k cur
    rw [mergeAnnot, mergeGo]
    split <;> simp
  | cons u rest ih =>
    intro k cur
    rw [mergeAnnot, mergeGo]
    by_cases h : cur ≠ [] ∧ target < cur.length + u.length
    · rw [if_pos h, if_pos h, List.map_cons, ih]
    · rw [if_neg h, if_neg h, ih]

theorem mergeAnnot_head (target overlap : Nat) :
    ∀ (units : List (List Char)) (k : Nat) (cur : List Char),
      mergeAnnot target overlap k cur units = [] ∨
        ∃ w t', mergeAnnot target overlap k cur units = (k, cur ++ w) :: t' := by
  intro units
  induction units with
  | nil =>
    intro k cur
    rw [mergeAnnot]
    by_cases h : cur = []
    · left
      rw [if_pos h]
    · right
      exact ⟨[], [], by rw [if_neg h]; simp⟩
  | cons u rest ih =>
    intro k cur
    rw [mergeAnnot]
    by_cases h : cur ≠ [] ∧ target < cur.length + u.length
    · right
      refine ⟨[], mergeAnnot target overlap
          (cur.drop (cur.length - min overlap (target - u.length))).length
          (cur.drop (cur.length - min overlap (target - u.length)) ++ u) rest, ?_⟩
      rw [if_pos h, List.append_nil]
    · rw [if_neg h]
      rcases ih k (cur ++ u) with h0 | ⟨w, t', hw⟩
      · left
        exact h0
      · right
        exact ⟨u ++ w, t', by rw [hw, List.append_assoc]⟩

theorem annotCat_cons (p : Nat × List Char) (l : List (Nat × List Char)) :
    annotCat (p :: l) = p.2.drop p.1 ++ annotCat l := by
  simp [annotCat]

theorem mergeAnnot_annotCat (target overlap : Nat) :
    ∀ (units : List (List Char)) (k : Nat) (cur : List Char),
      k ≤ cur.length →
      annotCat (mergeAnnot target overlap k cur units) =
        cur.drop k ++ units.flatten := by
  intro units
  induction units with
  | nil =>
    intro k cur hk
    rw [mergeAnnot]
    split
    · simp_all [annotCat]
    · simp [annotCat]
  | cons u rest ih =>
    intro k cur hk
    rw [mergeAnnot]
    by_cases h : cur ≠ [] ∧ target < cur.length + u.length
    · rw [if_pos h, annotCat_cons,
        ih (cur.drop (cur.length - min overlap (target - u.length))).length
          (cur.drop (cur.length - min overlap (target - u.length)) ++ u)
          (by simp),
        List.drop_left, List.flatten_cons]
    · rw [if_neg h, ih k (cur ++ u) (le_trans hk (by simp)),
        List.drop_append_of_le_length hk, List.flatten_cons,
        List.append_assoc]

theorem mergeAnnot_chain (target overlap : Nat) :
    ∀ (units : List (List Char)) (k : Nat) (cur : List Char),
      List.Chain' (fun a b => b.1 ≤ overlap ∧ b.2.take b.1 <:+ a.2)
        (mergeAnnot target overlap k cur units) := by
  intro units
  induction units with
  | nil =>
    intro k cur
    rw [mergeAnnot]
    split
    · exact List.chain'_nil
    · exact List.chain'_singleton _
  | cons u rest ih =>
    intro k cur
    rw [mergeAnnot]
    by_cases h : cur ≠ [] ∧ target < cur.length + u.length
    · rw [if_pos h]
      rcases mergeAnnot_head target overlap rest
          (cur.drop (cur.length - min overlap (target - u.length))).length
          (cur.drop (cur.length - min overlap (target - u.length)) ++ u)
        with h0 | ⟨w, t', hw⟩
      · rw [h0]
        exact List.chain'_singleton _
      · rw [hw, List.chain'_cons]
        constructor
        · constructor
          · simp only [List.length_drop]
            omega
          · rw [List.append_assoc, List.take_left]
            exact List.drop_suffix _ _
        · rw [← hw]
          exact ih _ _
    · rw [if_neg h]
      exact ih k (cur ++ u)

theorem trimCat_map (l : List (Nat × List Char)) :
    trimCat (l.map Prod.fst) (l.map Prod.snd) = annotCat l := by
  induction l with
  | nil => simp [trimCat, annotCat]
  | cons p ps ih => simp [trimCat, annotCat, ih]

/-! ### Lemmas about slot-based gathering -/

theorem foldl_set_getElem {α : Type} (results : List α) :
    ∀ (sched : List Nat) (slots : List (Option α)) (j : Nat),
      (sched.foldl (fun slots i => slots.set i results[i]?) slots)[j]? =
        if j ∈ sched ∧ j < slots.length then some results[j]? else slots[j]? := by
  intro sched
  induction sched with
  | nil =>
    intro slots j
    simp
  | cons i rest ih =>
    intro slots j
    rw [List.foldl_cons, ih, List.length_set]
    by_cases hjr : j ∈ rest
    · by_cases hlen : j < slots.length
      · rw [if_pos ⟨hjr, hlen⟩, if_pos ⟨by simp [hjr], hlen⟩]
      · rw [if_neg (by tauto), if_neg (by tauto),
          List.getElem?_eq_none (by rw [List.length_set]; omega),
          List.getElem?_eq_none (by omega)]
    · rw [if_neg (by tauto), List.getElem?_set]
      by_cases hij : i = j
      · subst hij
        by_cases hlen : i < slots.length
        · rw [if_pos rfl, if_pos hlen, if_pos ⟨by simp, hlen⟩]
        · rw [if_pos rfl, if_neg hlen, if_neg (by tauto),
            List.getElem?_eq_none (by omega)]
      · rw [if_neg hij, if_neg (by
          intro hc
          rcases List.mem_cons.mp hc.1 with h | h
          · exact hij h.symm
          · exact hjr h)]

theorem gatherSched_eq {α : Type} (results : List α) (sched : List Nat)
    (h : sched.Perm (List.range results.length)) :
    gatherSched results sched = results.map some := by
  apply List.ext_getElem?
  intro j
  rw [gatherSched, foldl_set_getElem, List.length_replicate,
    List.getElem?_map]
  have hmem : j ∈ sched ↔ j < results.length := by
    rw [h.mem_iff, List.mem_range]
  by_cases hj : j < results.length
  · rw [if_pos ⟨hmem.mpr hj, hj⟩, List.getElem?_eq_getElem hj]
    simp [List.getElem?_eq_getElem hj]
  · rw [if_neg (by tauto), List.getElem?_replicate, if_neg hj,
      List.getElem?_eq_none (by omega)]
    simp

/-! ### Claim theorems -/

/-- Claim C1: for every list of URLs, a fetch whose loader raises an error yields
an empty result for that URL while every other URL contributes exactly the
chunks of its own fetch result; `crawl` is a total function (it returns
normally for per-URL fetch problems), and when every fetch fails it returns
the well-formed empty chunk sequence. -/
theorem c1_fetch_isolation (cr : Crawler) (brand : Brand)
    (f : String → Except String (List (List Char))) (u : String) (e : String)
    (hf : f u = Except.error e) :
    load_document f u = [] ∧
    crawl cr f brand =
      (derive_urls brand).flatMap (fun v =>
        if v = u then []
        else if load_document f v = [] then []
        else chunk_content cr (load_document f v)) ∧
    (∀ g : String → Except String (List (List Char)),
      (∀ v, ∃ e2, g v = Except.error e2) → crawl cr g brand = []) := by
  have hload : load_document f u = [] := by
    rw [load_document, hf]
  refine ⟨hload, ?_, ?_⟩
  · simp only [crawl, async_crawl]
    rw [List.flatMap_map]
    congr 1
    funext v
    by_cases hv : v = u
    · subst hv
      rw [if_pos rfl, hload, if_pos rfl]
    · rw [if_neg hv]
  · intro g hg
    simp only [crawl, async_crawl]
    rw [List.flatMap_map]
    have hz : ∀ v : String,
        (if load_document g v = [] then []
         else chunk_content cr (load_document g v)) = ([] : List (List Char)) := by
      intro v
      obtain ⟨e2, he⟩ := hg v
      have hlv : load_document g v = [] := by
        rw [load_document, he]
      rw [hlv, if_pos rfl]
    rw [funext hz]
    simp

/-- A concrete page-loader oracle for the closed witnesses: URL "a"
succeeds with one short document, every other URL raises. -/
def demo_loader : String → Except String (List (List Char)) :=
  fun u => if u = "a" then Except.ok [['h', 'i']] else Except.error "down"

/-- Witness for C1. -/
theorem c1_witness :
    demo_loader "b" = Except.error "down" ∧
      (load_document demo_loader "b" = [] ∧
        crawl (Crawler.mk 30 50000 4 3) demo_loader (Brand.mk "a" ["b"]) =
          (derive_urls (Brand.mk "a" ["b"])).flatMap (fun v =>
            if v = "b" then []
            else if load_document demo_loader v = [] then []
            else chunk_content (Crawler.mk 30 50000 4 3)
              (load_document demo_loader v)) ∧
        (∀ g : String → Except String (List (List Char)),
          (∀ v, ∃ e2, g v = Except.error e2) →
            crawl (Crawler.mk 30 50000 4 3) g (Brand.mk "a" ["b"]) = [])) :=
  ⟨by rfl, c1_fetch_isolation _ _ _ _ _ (by rfl)⟩

/-- Claim C2: the fetch phase produces exactly one result per input URL,
positionally associated with its URL (for any completion order of the
fetch tasks), and `crawl` is the concatenation, in URL-list order, of the
chunk sequences of the non-empty results, independent of the completion
order. -/
theorem c2_order (cr : Crawler) (brand : Brand)
    (loader : String → Except String (List (List Char))) (sched : List Nat)
    (h : sched.Perm (List.range (derive_urls brand).length)) :
    gatherSched ((derive_urls brand).map (load_document loader)) sched =
      (derive_urls brand).map (fun v => some (load_document loader v)) ∧
    async_crawl_sched cr loader brand sched = crawl cr loader brand ∧
    crawl cr loader brand =
      (derive_urls brand).flatMap (fun v =>
        if load_document loader v = [] then []
        else chunk_content cr (load_document loader v)) := by
  have h1 : gatherSched ((derive_urls brand).map (load_document loader)) sched =
      ((derive_urls brand).map (load_document loader)).map some := by
    apply gatherSched_eq
    rwa [List.length_map]
  have h3 : crawl cr loader brand = (derive_urls brand).flatMap (fun v =>
      if load_document loader v = [] then []
      else chunk_content cr (load_document loader v)) := by
    simp only [crawl, async_crawl]
    rw [List.flatMap_map]
  refine ⟨?_, ?_, h3⟩
  · rw [h1, List.map_map]
    rfl
  · simp only [async_crawl_sched]
    rw [h1, List.flatMap_map, List.flatMap_map, h3]
    rfl

/-- Witness for C2: three URLs whose completion order differs from the
submission order. -/
theorem c2_witness :
    ([2, 0, 1] : List Nat).Perm
        (List.range (derive_urls (Brand.mk "a" ["b", "c"])).length) ∧
      (gatherSched ((derive_urls (Brand.mk "a" ["b", "c"])).map
            (load_document demo_loader)) [2, 0, 1] =
          (derive_urls (Brand.mk "a" ["b", "c"])).map
            (fun v => some (load_document demo_loader v)) ∧
        async_crawl_sched (Crawler.mk 30 50000 4 3) demo_loader
            (Brand.mk "a" ["b", "c"]) [2, 0, 1] =
          crawl (Crawler.mk 30 50000 4 3) demo_loader (Brand.mk "a" ["b", "c"]) ∧
        crawl (Crawler.mk 30 50000 4 3) demo_loader (Brand.mk "a" ["b", "c"]) =
          (derive_urls (Brand.mk "a" ["b", "c"])).flatMap (fun v =>
            if load_document demo_loader v = [] then []
            else chunk_content (Crawler.mk 30 50000 4 3)
              (load_document demo_loader v))) :=
  ⟨by decide, c2_order _ _ _ _ (by decide)⟩

/-- Claim C3: the configured timeout has no effect on any fetch or on the output
of `crawl`: `self.timeout` is stored by the constructor (crawler.py line
48) but never read again, so a fetch exceeding the configured timeout is
not cut off and not converted to an empty result. -/
theorem c3_timeout_ignored (cr : Crawler) (t : Int)
    (loader : String → Except String (List (List Char))) (brand : Brand) :
    crawl (Crawler.mk t cr.max_chunk_length cr.chunk_size cr.chunk_overlap) loader brand = crawl cr loader brand := rfl

/-- Claim C4: constructing a Crawler with an invalid configuration — overlap
greater than or equal to the target chunk size, or negative sizes — fails
at construction time with a descriptive error, and only then. -/
theorem c4_config_rejection (t m cs co : Int) :
    (∃ msg, Crawler.init t m cs co = Except.error msg) ↔
      (cs ≤ co ∨ cs < 0 ∨ co < 0 ∨ m < 0) := by
  rw [Crawler.init]
  by_cases h1 : cs ≤ co
  · rw [if_pos h1]
    exact ⟨fun _ => Or.inl h1, fun _ => ⟨_, rfl⟩⟩
  · by_cases h2 : cs < 0 ∨ co < 0 ∨ m < 0
    · rw [if_neg h1, if_pos h2]
      exact ⟨fun _ => Or.inr h2, fun _ => ⟨_, rfl⟩⟩
    · rw [if_neg h1, if_neg h2]
      constructor
      · rintro ⟨msg, hmsg⟩
        exact absurd hmsg (by simp)
      · intro hor
        rcases hor with h | h | h | h
        · exact absurd h h1
        · exact absurd (Or.inl h) h2
        · exact absurd (Or.inr (Or.inl h)) h2
        · exact absurd (Or.inr (Or.inr h)) h2

/-- Claim C5: every chunk produced by the chunker has length at most
`target_chunk_size` (so in particular the claim's only allowed exception,
an indivisible unit standing alone, is never exceeded). -/
theorem c5_chunk_bound (cr : Crawler) (t : List Char)
    (h : 1 ≤ cr.chunk_size) :
    ∀ c ∈ chunk_content cr t, c.length ≤ cr.chunk_size := by
  intro c hc
  simp only [chunk_content] at hc
  split at hc
  · exact absurd hc (by simp)
  · rw [split_text] at hc
    refine mergeGo_length_le _ _ _ _ ?_ (by simp) c hc
    intro p hp
    have h2 := recSplit_length_le cr.chunk_size separators
      (by simp [separators]) _ p hp
    omega

/-- Witness for C5. -/
theorem c5_witness :
    1 ≤ (Crawler.mk 30 50000 4 3).chunk_size ∧
      ∀ c ∈ chunk_content (Crawler.mk 30 50000 4 3)
          ['a', 'a', ' ', 'b', 'b', ' ', 'c', 'c'],
        c.length ≤ (Crawler.mk 30 50000 4 3).chunk_size :=
  ⟨by decide, c5_chunk_bound _ _ (by decide)⟩

/-- Claim C6, counterexample: with `target_chunk_size = 4` and `overlap = 3` on
the text "aa bb cc", the chunker produces ["aa ", " bb ", "b cc"]: trimming
the first `overlap = 3` characters of each later chunk and concatenating
gives "aa  c", which skips characters of the source, and chunk 2's 3-char
prefix " bb" differs from chunk 1's 3-char suffix "aa " — so the claim's
exact-`overlap` boundary relation fails. -/
theorem c6_counterexample :
    chunk_content (Crawler.mk 30 50000 4 3)
        ['a', 'a', ' ', 'b', 'b', ' ', 'c', 'c'] =
      [['a', 'a', ' '], [' ', 'b', 'b', ' '], ['b', ' ', 'c', 'c']] ∧
    ¬ (['a', 'a', ' '] ++ ([' ', 'b', 'b', ' '].drop 3 ++
          ['b', ' ', 'c', 'c'].drop 3) =
        ['a', 'a', ' ', 'b', 'b', ' ', 'c', 'c']) ∧
    ¬ ([' ', 'b', 'b', ' '].take 3 =
        ['a', 'a', ' '].drop (['a', 'a', ' '].length - 3)) := by
  refine ⟨by decide, by decide, by decide⟩

/-- Claim C6, amended: adjacent chunks share a boundary segment of at most
`overlap` characters (a suffix of the earlier chunk and a prefix of the
later one, possibly shorter than `overlap`), the first chunk carries no
boundary segment, and trimming each chunk's actual shared segment and
concatenating reconstructs the (possibly truncated) source text exactly,
with no character skipped between adjacent chunks. -/
theorem c6_overlap_reconstruction (cr : Crawler) (t : List Char) :
    ∃ ts : List Nat,
      ts.length = (chunk_content cr t).length ∧
      (∀ k ∈ ts.head?, k = 0) ∧
      List.Chain' (fun a b => b.1 ≤ cr.chunk_overlap ∧ b.2.take b.1 <:+ a.2)
        (ts.zip (chunk_content cr t)) ∧
      trimCat ts (chunk_content cr t) =
        (if cr.max_chunk_length < t.length then t.take cr.max_chunk_length
         else t) := by
  by_cases ht : t = []
  · subst ht
    exact ⟨[], by simp [chunk_content], by simp,
      by simp [chunk_content], by simp [chunk_content, trimCat]⟩
  · set T := (if cr.max_chunk_length < t.length then t.take cr.max_chunk_length
      else t) with hT
    have hcc : chunk_content cr t =
        (mergeAnnot cr.chunk_size cr.chunk_overlap 0 []
          (recSplit cr.chunk_size separators T)).map Prod.snd := by
      rw [mergeAnnot_map_snd]
      simp only [chunk_content, if_neg ht, split_text, hT]
    refine ⟨(mergeAnnot cr.chunk_size cr.chunk_overlap 0 []
        (recSplit cr.chunk_size separators T)).map Prod.fst, ?_, ?_, ?_, ?_⟩
    · rw [hcc]
      simp
    · rcases mergeAnnot_head cr.chunk_size cr.chunk_overlap
          (recSplit cr.chunk_size separators T) 0 [] with h0 | ⟨w, t', hw⟩
      · rw [h0]
        simp
      · rw [hw]
        simp
    · rw [hcc, List.zip_map']
      have hid : (fun a : Nat × List Char => (a.1, a.2)) = id := by
        funext a
        rfl
      rw [hid, List.map_id]
      exact mergeAnnot_chain _ _ _ _ _
    · rw [hcc, trimCat_map, mergeAnnot_annotCat _ _ _ _ _ (by simp),
        recSplit_flatten]
      simp

/-- Claim C7: for text longer than `max_input_length`, the chunker splits exactly
the first `max_input_length` characters (the output equals chunking the
truncated text) and no chunk contains any character beyond that position
(every chunk is a contiguous segment of the truncated text). -/
theorem c7_truncation (cr : Crawler) (t : List Char)
    (h : cr.max_chunk_length < t.length) :
    chunk_content cr t = chunk_content cr (t.take cr.max_chunk_length) ∧
    ∀ c ∈ chunk_content cr t, c <:+: t.take cr.max_chunk_length := by
  have ht : t ≠ [] := by
    intro h0
    rw [h0] at h
    simp at h
  have h1 : chunk_content cr t =
      split_text cr.chunk_size cr.chunk_overlap (t.take cr.max_chunk_length) := by
    simp only [chunk_content, if_neg ht, if_pos h]
  constructor
  · rw [h1]
    by_cases h0 : t.take cr.max_chunk_length = []
    · rw [h0]
      simp only [chunk_content, if_pos rfl]
      rfl
    · have hlen : ¬ (cr.max_chunk_length <
          (t.take cr.max_chunk_length).length) := by
        rw [List.length_take]
        omega
      simp only [chunk_content, if_neg h0, if_neg hlen]
  · intro c hc
    rw [h1, split_text] at hc
    have h2 := mergeGo_infix cr.chunk_size cr.chunk_overlap _ _ c hc
    rwa [recSplit_flatten, List.nil_append] at h2

/-- Witness for C7. -/
theorem c7_witness :
    (Crawler.mk 0 5 4 3).max_chunk_length <
        (['a', 'a', ' ', 'b', 'b', ' ', 'c', 'c'] : List Char).length ∧
      (chunk_content (Crawler.mk 0 5 4 3)
          ['a', 'a', ' ', 'b', 'b', ' ', 'c', 'c'] =
        chunk_content (Crawler.mk 0 5 4 3)
          (['a', 'a', ' ', 'b', 'b', ' ', 'c', 'c'].take
            (Crawler.mk 0 5 4 3).max_chunk_length) ∧
      ∀ c ∈ chunk_content (Crawler.mk 0 5 4 3)
          ['a', 'a', ' ', 'b', 'b', ' ', 'c', 'c'],
        c <:+: ['a', 'a', ' ', 'b', 'b', ' ', 'c', 'c'].take
            (Crawler.mk 0 5 4 3).max_chunk_length) :=
  ⟨by decide, c7_truncation _ _ (by decide)⟩

/-- Claim C8: the derived URL list has the primary URL first, followed by the
auxiliary URLs in their given order; duplicates are retained (the list
keeps one entry per auxiliary URL plus the primary). -/
theorem c8_url_order (brand : Brand) :
    derive_urls brand = brand.website_url :: brand.links ∧
    (derive_urls brand).length = brand.links.length + 1 := by
  have h : derive_urls brand = brand.website_url :: brand.links := by
    rw [derive_urls]
    split
    · next hl => rw [hl]
    · rfl
  exact ⟨h, by rw [h]; simp⟩

/-- Claim C9: chunking the empty string returns the empty chunk sequence, and
chunking whitespace-only input yields only whitespace (an empty or trivial
sequence); the chunker is a total function and never raises. -/
theorem c9_empty_input (cr : Crawler) (w : List Char)
    (hw : ∀ c ∈ w, c ∈ whitespace_chars) :
    chunk_content cr [] = [] ∧
    ∀ ch ∈ chunk_content cr w, ∀ c ∈ ch, c ∈ whitespace_chars := by
  refine ⟨by simp [chunk_content], ?_⟩
  intro ch hch c hc
  by_cases hw0 : w = []
  · rw [hw0] at hch
    simp [chunk_content] at hch
  · simp only [chunk_content, if_neg hw0, split_text] at hch
    have h2 := mergeGo_infix cr.chunk_size cr.chunk_overlap _ _ ch hch
    rw [recSplit_flatten, List.nil_append] at h2
    have hsub := h2.subset hc
    apply hw
    by_cases hlen : cr.max_chunk_length < w.length
    · rw [if_pos hlen] at hsub
      exact List.take_subset _ _ hsub
    · rwa [if_neg hlen] at hsub

/-- Witness for C9. -/
theorem c9_witness :
    (∀ c ∈ ([' ', ' ', '\n'] : List Char), c ∈ whitespace_chars) ∧
      (chunk_content (Crawler.mk 30 50000 4 3) [] = [] ∧
        ∀ ch ∈ chunk_content (Crawler.mk 30 50000 4 3) [' ', ' ', '\n'],
          ∀ c ∈ ch, c ∈ whitespace_chars) :=
  ⟨by decide, c9_empty_input _ _ (by decide)⟩

/-- Claim C10: `crawl` leaves the configuration unchanged — the post-state equals
the pre-state on every stored field — so a second crawl from the post-state
returns the same output. -/
theorem c10_config_frame (cr : Crawler)
    (loader : String → Except String (List (List Char))) (brand : Brand) :
    (crawl_st cr loader brand).2 = cr ∧
    (crawl_st cr loader brand).2.timeout = cr.timeout ∧
    (crawl_st cr loader brand).2.max_chunk_length = cr.max_chunk_length ∧
    (crawl_st cr loader brand).2.chunk_size = cr.chunk_size ∧
    (crawl_st cr loader brand).2.chunk_overlap = cr.chunk_overlap ∧
    (crawl_st (crawl_st cr loader brand).2 loader brand).1 =
      (crawl_st cr loader brand).1 :=
  ⟨rfl, rfl, rfl, rfl, rfl, rfl⟩

end Zegie
